import Mathlib

/-!
# FILE-EXPLORER-cpp: a shallow embedding of `src/main.cpp`

The program is one class, `FileExplorer`, whose methods read a line of input,
call a handful of `std::filesystem` primitives and print a message.  The
embedding keeps that shape:

* a `std::string` is the Lean string of its bytes: each `char` is one Lean
  `Char`, compared by its unsigned value as `std::char_traits<char>` does, so
  a name with a multi-byte character is the string of the bytes of its
  encoding;
* the `double` in `formatFileSize` is a dyadic rational `num / 2 ^ shift`; the
  only inexact step of that function is the conversion of the byte count;
* the file system is a finite table from paths to nodes, with a record `Os`
  of what the table does not tell (second names of a file, dangling links,
  changes the operating system refuses); every method is a function from the
  table before the call to the table after it, paired with what it printed;
* a thrown `std::exception` is the `none` result of the primitive that throws,
  handled where the `catch` clause stands in the source.
-/

namespace FileExplorer

/-! ## `formatFileSize` (main.cpp 66-79) -/

/-- A non-negative `double`, held exactly as `num / 2 ^ shift`. -/
structure DoubleVal where
  num : Nat
  shift : Nat
deriving DecidableEq, Repr

/-- The exact rational value of a `DoubleVal`. -/
def DoubleVal.toRat (x : DoubleVal) : ℚ := (x.num : ℚ) / 2 ^ x.shift

/-- Number of low bits that do not fit in the 53-bit significand of a
`double`: how often `n` is halved until it is below `2 ^ 53`.  The first
argument bounds the recursion; `n` itself is always enough. -/
def excessBits : Nat → Nat → Nat
  | 0, _ => 0
  | fuel + 1, n => if n < 2 ^ 53 then 0 else excessBits fuel (n / 2) + 1

/-- The conversion `static_cast<double>(size)` of an unsigned integer: round to
the nearest value with a 53-bit significand, ties to the even significand
(the default IEEE-754 rounding mode).  The result is an integer. -/
def toDouble (n : Nat) : Nat :=
  let sh := excessBits n n
  if sh = 0 then n
  else
    let q := n / 2 ^ sh
    let r := n % 2 ^ sh
    let half := 2 ^ (sh - 1)
    if half < r ∨ (r = half ∧ q % 2 = 1) then (q + 1) * 2 ^ sh else q * 2 ^ sh

/-- The array `units` of `formatFileSize`. -/
def units : List String := ["B", "KB", "MB", "GB", "TB"]

/-- The two local variables the `while` loop of `formatFileSize` updates. -/
structure SizeState where
  fileSize : DoubleVal
  unitIndex : Nat
deriving DecidableEq, Repr

/-- The loop `while (fileSize >= 1024.0 && unitIndex < 4) { fileSize /= 1024.0;
unitIndex++; }`.  Dividing a `double` by `1024.0` is exact (a power of two, no
underflow in this range), so it only moves the binary point.  The first
argument bounds the number of iterations. -/
def sizeLoop : Nat → SizeState → SizeState
  | 0, st => st
  | fuel + 1, st =>
    if 1024 * 2 ^ st.fileSize.shift ≤ st.fileSize.num ∧ st.unitIndex < 4 then
      sizeLoop fuel ⟨⟨st.fileSize.num, st.fileSize.shift + 10⟩, st.unitIndex + 1⟩
    else st

/-- State of `formatFileSize` when the loop is left.  The guard
`unitIndex < 4` stops the loop after at most four iterations. -/
def scaled (size : Nat) : SizeState :=
  sizeLoop 4 ⟨⟨toDouble size, 0⟩, 0⟩

/-- The value `x`, in hundredths, as `printf("%.2f")` rounds it: the nearest
multiple of `0.01` of the exact binary value, ties to the even digit. -/
def hundredths (x : DoubleVal) : Nat :=
  let q := x.num * 100 / 2 ^ x.shift
  let r := x.num * 100 % 2 ^ x.shift
  if 2 ^ x.shift < 2 * r ∨ (2 ^ x.shift = 2 * r ∧ q % 2 = 1) then q + 1 else q

/-- The text `printf("%.2f", x)` writes for a non-negative `x`. -/
def printf2f (x : DoubleVal) : String :=
  let h := hundredths x
  Nat.repr (h / 100) ++ "." ++
    String.mk [Nat.digitChar (h % 100 / 10), Nat.digitChar (h % 100 % 10)]

/-- `FileExplorer::formatFileSize`: `snprintf(buffer, 50, "%.2f %s", fileSize,
units[unitIndex])`. -/
def formatFileSize (size : Nat) : String :=
  let st := scaled size
  printf2f st.fileSize ++ " " ++ units.getD st.unitIndex ""

/-! ## `getPermissionString` (main.cpp 52-64) -/

/-- The nine permission bits of `fs::perms`, most significant first, with the
letter `getPermissionString` prints for each. -/
def permBits : List (Nat × String) :=
  [(0o400, "r"), (0o200, "w"), (0o100, "x"),
   (0o040, "r"), (0o020, "w"), (0o010, "x"),
   (0o004, "r"), (0o002, "w"), (0o001, "x")]

/-- `FileExplorer::getPermissionString`: one `result += (none != (p & bit)) ?
letter : "-"` statement per permission bit. -/
def getPermissionString (p : Nat) : String :=
  permBits.foldl (fun result b => result ++ (if p &&& b.1 ≠ 0 then b.2 else "-")) ""

/-! ## Paths and directory entries -/

/-- An `fs::path`, split into its components.  `isAbsolute` records a leading
root directory. -/
structure Path where
  isAbsolute : Bool
  parts : List String
deriving DecidableEq, Repr

/-- `operator/` of `fs::path`: an absolute right operand replaces the left
one, a relative one is appended to it. -/
def Path.join (p q : Path) : Path :=
  if q.isAbsolute then q else ⟨p.isAbsolute, p.parts ++ q.parts⟩

/-- `path::parent_path()`. -/
def Path.parent_path (p : Path) : Path := ⟨p.isAbsolute, p.parts.dropLast⟩

/-- `path::filename()`: the last component, empty when there is none. -/
def Path.filename (p : Path) : String := p.parts.getLast?.getD ""

/-- What `fs::status` says a path is.  `other` stands for every type that is
neither a regular file nor a directory: a FIFO, a socket, a device and, for an
entry read from a directory, a symbolic link whose target is missing. -/
inductive FileType where
  | regular
  | directory
  | other
deriving DecidableEq, Repr

/-- An `fs::directory_entry` as the program reads it: its path, the type and
permission bits of its status, and the size of its content. -/
structure DirEntry where
  path : Path
  type : FileType
  size : Nat
  perms : Nat
deriving DecidableEq, Repr

/-- `entry.path().filename().string()`. -/
def DirEntry.name (e : DirEntry) : String := e.path.filename

/-- `directory_entry::is_directory()`. -/
def DirEntry.is_directory (e : DirEntry) : Bool := e.type = FileType.directory

/-- `directory_entry::file_size()`: the size of a regular file; for any other
type the call throws `fs::filesystem_error`. -/
def DirEntry.file_size (e : DirEntry) : Option Nat :=
  match e.type with
  | FileType.regular => some e.size
  | _ => none

/-! ## `listFiles` (main.cpp 86-128) -/

/-- Lexicographic comparison of two character sequences by unsigned character
value, the order of `std::string` and so of two file names under
`fs::path::operator<`. -/
def lexLess : List Char → List Char → Bool
  | _, [] => false
  | [], _ :: _ => true
  | a :: as, b :: bs =>
    if a.toNat < b.toNat then true
    else if b.toNat < a.toNat then false
    else lexLess as bs

/-- The lambda passed to `std::sort` in `listFiles`. -/
def entryLess (a b : DirEntry) : Bool :=
  if a.is_directory != b.is_directory then a.is_directory
  else lexLess a.name.toList b.name.toList

/-- `std::sort(first, last, comp)`, as a stable insertion sort: an element is
placed behind the elements that `comp` does not put after it. -/
def stdSort (comp : DirEntry → DirEntry → Bool) (l : List DirEntry) : List DirEntry :=
  l.insertionSort (fun a b => comp b a = false)

/-- One line of the table: the four arguments of the `printf` call. -/
structure Row where
  type : String
  name : String
  size : String
  perms : String
deriving DecidableEq, Repr

/-- `std::string::substr(0, n)`: the first `n` bytes, a byte being one `Char`
of the string. -/
def substr0 (s : String) (n : Nat) : String := String.mk (s.toList.take n)

/-- Body of the printing loop of `listFiles` for one entry; `none` when
`entry.file_size()` throws. -/
def listRow (entry : DirEntry) : Option Row :=
  let type := if entry.is_directory then "[DIR]" else "[FILE]"
  let name := entry.name
  let size := if entry.is_directory then some "---" else entry.file_size.map formatFileSize
  let perms := getPermissionString entry.perms
  size.map (fun s => ⟨type, substr0 name 33, s, perms⟩)

/-- What `listFiles` printed: the rows, and whether the `catch` clause ended
the listing with an error message. -/
structure Listing where
  rows : List Row
  error : Bool
deriving DecidableEq, Repr

/-- The loop `for (const auto& entry : entries)` of `listFiles`: rows are
printed one by one until a call throws. -/
def printRows : List DirEntry → Listing
  | [] => ⟨[], false⟩
  | entry :: rest =>
    match listRow entry with
    | none => ⟨[], true⟩
    | some row => ⟨row :: (printRows rest).rows, (printRows rest).error⟩

/-- `FileExplorer::listFiles`, given the entries in the order in which
`fs::directory_iterator` yields them. -/
def listFiles (yielded : List DirEntry) : Listing :=
  printRows (stdSort entryLess yielded)

/-- A directory holding `docs/`, the regular file `notes.txt` and `link`, a
symbolic link whose target is missing. -/
def brokenLinkDir : List DirEntry :=
  [⟨⟨true, ["home", "notes.txt"]⟩, FileType.regular, 1536, 0o644⟩,
   ⟨⟨true, ["home", "link"]⟩, FileType.other, 0, 0o777⟩,
   ⟨⟨true, ["home", "docs"]⟩, FileType.directory, 4096, 0o755⟩]

/-! ## `searchFiles` (main.cpp 378-415) -/

/-- Does `std::string::find` report a match of `term` at the start of `s`? -/
def matchesAt (term : List Char) (s : List Char) : Bool :=
  match term, s with
  | [], _ => true
  | _ :: _, [] => false
  | t :: term', c :: s' => t == c && matchesAt term' s'

/-- `std::string::find(term)`: the first position at which `term` occurs in
`s`, `none` standing for `std::string::npos`. -/
def strFind (term : List Char) : List Char → Option Nat
  | [] => if matchesAt term [] then some 0 else none
  | c :: s => if matchesAt term (c :: s) then some 0 else (strFind term s).map (· + 1)

/-- One step of `fs::recursive_directory_iterator`: the next entry, or a
thrown `fs::filesystem_error`. -/
inductive WalkStep where
  | entry (e : DirEntry)
  | error
deriving DecidableEq, Repr

/-- Addition on `int`, wrapped to 32 bits. -/
def wrapInt32 (x : Int) : Int := (x + 2 ^ 31) % 2 ^ 32 - 2 ^ 31

/-- The lines `searchFiles` has printed so far and its `count` variable. -/
structure SearchState where
  lines : List (String × Path)
  count : Int
deriving DecidableEq, Repr

/-- Body of the loop of `searchFiles` for one entry. -/
def searchStep (searchTerm : String) (st : SearchState) (entry : DirEntry) : SearchState :=
  let fileName := entry.path.filename
  if (strFind searchTerm.toList fileName.toList).isSome then
    let type := if entry.is_directory then "[DIR]" else "[FILE]"
    ⟨st.lines ++ [(type, entry.path)], wrapInt32 (st.count + 1)⟩
  else st

/-- The loop of `searchFiles` over the steps of the iterator; the second
component tells whether an exception left the loop. -/
def searchLoop (searchTerm : String) : List WalkStep → SearchState → SearchState × Bool
  | [], st => (st, false)
  | WalkStep.error :: _, st => (st, true)
  | WalkStep.entry e :: rest, st => searchLoop searchTerm rest (searchStep searchTerm st e)

/-- What `searchFiles` prints after the loop. -/
inductive SearchSummary where
  | noFilesFound
  | found (count : Int)
  | errorDuringSearch
deriving DecidableEq, Repr

/-- `FileExplorer::searchFiles`, given the steps of the recursive iterator:
the lines printed for the matches and the closing message. -/
def searchFiles (searchTerm : String) (walk : List WalkStep) : List (String × Path) × SearchSummary :=
  let r := searchLoop searchTerm walk ⟨[], 0⟩
  if r.2 then (r.1.lines, SearchSummary.errorDuringSearch)
  else if r.1.count = 0 then (r.1.lines, SearchSummary.noFilesFound)
  else (r.1.lines, SearchSummary.found r.1.count)

/-- The line `searchFiles` prints for a matching entry. -/
def searchLine (entry : DirEntry) : String × Path :=
  (if entry.is_directory then "[DIR]" else "[FILE]", entry.path)

/-- A walk that visits `report.txt`, the directory `reports` and `other.txt`. -/
def reportWalk : List DirEntry :=
  [⟨⟨true, ["home", "report.txt"]⟩, FileType.regular, 1536, 0o644⟩,
   ⟨⟨true, ["home", "reports"]⟩, FileType.directory, 4096, 0o755⟩,
   ⟨⟨true, ["home", "other.txt"]⟩, FileType.regular, 7, 0o644⟩]

/-! ## The file system

The state the `std::filesystem` calls of the program read and change: a
finite table from paths to nodes, which tells what `fs::status` finds under
each path.  A primitive fails for the reasons visible in the table (a missing
file, a missing parent directory, a node of the wrong type, a directory that
is not empty).  What the table does not tell is held by `Os`: which paths are
two names of one file, which paths are symbolic links whose target is missing,
and which changes the operating system refuses to the process. -/

/-- What is stored under a path: the file type, the twelve permission bits and,
for a regular file, its bytes. -/
structure Node where
  type : FileType
  perms : Nat
  content : List Nat
deriving DecidableEq, Repr

/-- The table of all existing paths. -/
abbrev FileSystem := List (Path × Node)

/-- `fs::status(p)`: the node under `p`, `none` when `p` does not exist. -/
def status : FileSystem → Path → Option Node
  | [], _ => none
  | (q, n) :: rest, p => if q = p then some n else status rest p

/-- `fs::exists(p)`. -/
def pathExists (fs : FileSystem) (p : Path) : Bool := (status fs p).isSome

/-- `fs::is_directory(p)`. -/
def is_directory (fs : FileSystem) (p : Path) : Bool :=
  match status fs p with
  | some n => n.type = FileType.directory
  | none => false

/-- What the operating system knows about the paths beyond the table. -/
structure Os where
  /-- `sameFile p q`: the two paths name one file, as `fs::equivalent` tells:
  one entry written in two ways (with `.` or `..` components, through a link)
  or two hard links to one file. -/
  sameFile : Path → Path → Bool
  /-- `danglingLink p = some t`: the entry `p` is a symbolic link to `t`, and
  `fs::status` finds nothing under `p` while `t` is missing. -/
  danglingLink : Path → Option Path
  /-- The paths whose permission bits the process may not change (`chmod`
  fails with `EPERM` or `EROFS`). -/
  deniesChmod : Path → Bool
  /-- The paths the process may not remove from their directory (`unlink`
  fails with `EACCES`, `EPERM` or `EROFS`). -/
  deniesUnlink : Path → Bool

/-- The table without the entry for `p`. -/
def erase (fs : FileSystem) (p : Path) : FileSystem := fs.filter (fun e => e.1 ≠ p)

/-- The table with `n` stored under `p`, in place of what was there. -/
def store (fs : FileSystem) (p : Path) (n : Node) : FileSystem := (p, n) :: erase fs p

/-- The components that lead from `base` to `p`, when `p` is `base` or lies
below it. -/
def relativeTo : List String → List String → Option (List String)
  | [], p => some p
  | _ :: _, [] => none
  | b :: base, c :: p => if b = c then relativeTo base p else none

/-- The components that lead from the path `base` to the path `p`. -/
def Path.below (base p : Path) : Option (List String) :=
  if base.isAbsolute = p.isAbsolute then relativeTo base.parts p.parts else none

/-- Does the directory `p` have an entry? -/
def hasChildren (fs : FileSystem) (p : Path) : Bool :=
  fs.any (fun e =>
    match Path.below p e.1 with
    | some (_ :: _) => true
    | _ => false)

/-- `fs::remove(p)`; `none` when it throws: the operating system refuses to
remove the entry, or the entry is a directory that is not empty.  Under a path
without status there is nothing to remove from the table (a dangling link is
taken from its directory, which the table does not show). -/
def remove (fs : FileSystem) (os : Os) (p : Path) : Option FileSystem :=
  match status fs p with
  | none => if (os.danglingLink p).isSome ∧ os.deniesUnlink p then none else some fs
  | some n =>
    if os.deniesUnlink p then none
    else if n.type = FileType.directory ∧ hasChildren fs p then none
    else some (erase fs p)

/-- The process file-mode creation mask. -/
def umask : Nat := 0o022

/-- Opening the entry `p` itself for writing, creating it if needed and
truncating it; `none` when that fails. -/
def openForWriting (fs : FileSystem) (p : Path) : Option FileSystem :=
  match status fs p with
  | some n =>
    match n.type with
    | FileType.regular => some (store fs p { n with content := [] })
    | FileType.directory => none
    | FileType.other => some fs
  | none =>
    if is_directory fs p.parent_path then
      some (store fs p ⟨FileType.regular, 0o666 &&& (0o777 ^^^ umask), []⟩)
    else none

/-- The constructor `std::ofstream file(p)`: opens `p` for writing; `none`
when the stream is not open.  The open follows a symbolic link: under a
dangling link it is the target of the link that is created, and the link then
names the new file. -/
def ofstream_open (fs : FileSystem) (os : Os) (p : Path) : Option FileSystem :=
  match status fs p with
  | some _ => openForWriting fs p
  | none =>
    match os.danglingLink p with
    | none => openForWriting fs p
    | some target =>
      match openForWriting fs target with
      | none => none
      | some fs' => (status fs' target).map (store fs' p)

/-! ## The operations of the menu -/

/-- The message an operation ends with. -/
inductive Message where
  | alreadyExists
  | created
  | couldNotCreate
  | sourceMissing
  | sourceIsDirectory
  | copied
  | moved
  | fileMissing
  | isDirectory
  | deleted
  | cancelled
  | targetMissing
  | invalidFormat
  | permissionsChanged (shown : String)
  | filesystemError
deriving DecidableEq, Repr

/-- `FileExplorer::createFile` (main.cpp 178-194). -/
def createFile (fs : FileSystem) (os : Os) (currentPath fileName : Path) :
    FileSystem × Message :=
  let filePath := currentPath.join fileName
  if pathExists fs filePath then (fs, Message.alreadyExists)
  else
    match ofstream_open fs os filePath with
    | some fs' => (fs', Message.created)
    | none => (fs, Message.couldNotCreate)

/-- `FileExplorer::deleteFile` (main.cpp 311-332); `confirm` is the character
read by `std::cin >> confirm`, which is only asked for when the target exists
and is not a directory. -/
def deleteFile (fs : FileSystem) (os : Os) (currentPath fileName : Path) (confirm : Char) :
    FileSystem × Message :=
  let filePath := currentPath.join fileName
  if pathExists fs filePath = false then (fs, Message.fileMissing)
  else if is_directory fs filePath then (fs, Message.isDirectory)
  else if confirm = 'y' ∨ confirm = 'Y' then
    match remove fs os filePath with
    | some fs' => (fs', Message.deleted)
    | none => (fs, Message.filesystemError)
  else (fs, Message.cancelled)

/-- The directory `/home` with a file `a.txt`, a file `b.txt` and a directory
`docs`. -/
def homeFs : FileSystem :=
  [(⟨true, []⟩, ⟨FileType.directory, 0o755, []⟩),
   (⟨true, ["home"]⟩, ⟨FileType.directory, 0o755, []⟩),
   (⟨true, ["home", "a.txt"]⟩, ⟨FileType.regular, 0o600, [104, 105]⟩),
   (⟨true, ["home", "b.txt"]⟩, ⟨FileType.regular, 0o644, [111, 108, 100]⟩),
   (⟨true, ["home", "docs"]⟩, ⟨FileType.directory, 0o755, []⟩)]

/-- The current directory of the examples, `/home`. -/
def homeDir : Path := ⟨true, ["home"]⟩

/-- A relative path of one component. -/
def rel (name : String) : Path := ⟨false, [name]⟩

/-- An operating system that refuses nothing, with no links and no second
names. -/
def plainOs : Os := ⟨fun _ _ => false, fun _ => none, fun _ => false, fun _ => false⟩

/-- An operating system that lets the process neither change the mode of
`/home/a.txt` nor remove it: the file of another user in a directory the
process may not write. -/
def guardedOs : Os :=
  ⟨fun _ _ => false, fun _ => none,
   fun p => p = ⟨true, ["home", "a.txt"]⟩, fun p => p = ⟨true, ["home", "a.txt"]⟩⟩

/-- An operating system in which `/home/link` is a symbolic link to
`/home/target`, which does not exist in `homeFs`. -/
def linkOs : Os :=
  ⟨fun _ _ => false,
   fun p => if p = ⟨true, ["home", "link"]⟩ then some ⟨true, ["home", "target"]⟩ else none,
   fun _ => false, fun _ => false⟩

/-- The components of a path text: the runs of characters between slashes.
The second argument holds the characters of the component being read, last
one first. -/
def splitComponents : List Char → List Char → List String
  | [], cur => if cur = [] then [] else [String.mk cur.reverse]
  | c :: cs, cur =>
    if c = '/' then
      if cur = [] then splitComponents cs [] else String.mk cur.reverse :: splitComponents cs []
    else splitComponents cs (c :: cur)

/-- The conversion of a `std::string` to an `fs::path`. -/
def Path.ofString (s : String) : Path :=
  ⟨s.toList.head? = some '/', splitComponents s.toList []⟩

/-- `path::has_parent_path()`: the parent path is not empty. -/
def Path.has_parent_path (p : Path) : Bool := p.isAbsolute || 2 ≤ p.parts.length

/-- What `changeDirectory` printed: the error line, if any, and the line
`Current directory: ...`, which an exception skips. -/
inductive ChangeOutput where
  | currentDirectory (shown : Path)
  | doesNotExist (shown : Path)
  | filesystemError
deriving DecidableEq, Repr

/-- The path `changeDirectory` tests, for an input other than `~` and `..`:
`fs::path targetPath = newPath; if (!targetPath.is_absolute()) targetPath =
currentPath / newPath;`. -/
def changeTarget (currentPath : Path) (newPath : String) : Path :=
  let targetPath := Path.ofString newPath
  if targetPath.isAbsolute = false then currentPath.join (Path.ofString newPath)
  else targetPath

/-- `FileExplorer::changeDirectory`: the new value of `currentPath` and what
was printed.  `home` is the value of `getenv("HOME")`; `canonical` is
`fs::canonical`, which resolves links and dot components through the file
system and the working directory of the process, `none` when it throws. -/
def changeDirectory (fs : FileSystem) (canonical : Path → Option Path) (home : String)
    (currentPath : Path) (newPath : String) : Path × ChangeOutput :=
  if newPath = "~" then
    (Path.ofString home, ChangeOutput.currentDirectory (Path.ofString home))
  else if newPath = ".." then
    if currentPath.has_parent_path then
      (currentPath.parent_path, ChangeOutput.currentDirectory currentPath.parent_path)
    else (currentPath, ChangeOutput.currentDirectory currentPath)
  else
    let targetPath := changeTarget currentPath newPath
    if pathExists fs targetPath && is_directory fs targetPath then
      match canonical targetPath with
      | some resolved => (resolved, ChangeOutput.currentDirectory resolved)
      | none => (currentPath, ChangeOutput.filesystemError)
    else (currentPath, ChangeOutput.doesNotExist currentPath)

/-! ## The tree walked by `searchFiles` -/

/-- The entries of a directory in the order in which
`fs::recursive_directory_iterator` meets them: nothing, an entry that is not
descended into followed by its later siblings, or a directory with its own
entries followed by its later siblings.  `readable` tells whether the
directory can be opened. -/
inductive Forest where
  | nil
  | file (e : DirEntry) (rest : Forest)
  | dir (e : DirEntry) (readable : Bool) (children rest : Forest)
deriving Repr

/-- The steps of `fs::recursive_directory_iterator` (default options) over a
forest, followed by the steps `next`: each entry is yielded; the increment
after a directory opens it, and throws when it cannot be opened, after which
there is no further step. -/
def walkThen : Forest → List WalkStep → List WalkStep
  | Forest.nil, next => next
  | Forest.file e rest, next => WalkStep.entry e :: walkThen rest next
  | Forest.dir e readable children rest, next =>
    WalkStep.entry e ::
      (if readable then walkThen children (walkThen rest next) else [WalkStep.error])

/-- The steps of the iterator over the content of the current directory. -/
def walk (f : Forest) : List WalkStep := walkThen f []

/-- What a walk visits that skips the directories it cannot open and goes on
with their later siblings, the walk the specification describes: every entry
of the forest in order, those below such a directory left out. -/
def Forest.skippingEntries : Forest → List DirEntry
  | Forest.nil => []
  | Forest.file e rest => e :: rest.skippingEntries
  | Forest.dir e readable children rest =>
    e :: ((if readable then children.skippingEntries else []) ++ rest.skippingEntries)

/-- Is there a directory in the forest that cannot be opened? -/
def Forest.hasUnreadable : Forest → Bool
  | Forest.nil => false
  | Forest.file _ rest => rest.hasUnreadable
  | Forest.dir _ readable children rest =>
    !readable || children.hasUnreadable || rest.hasUnreadable

/-- The entries the iterator yields before it throws. -/
def entriesBeforeError : List WalkStep → List DirEntry
  | [] => []
  | WalkStep.error :: _ => []
  | WalkStep.entry e :: rest => e :: entriesBeforeError rest

/-- A tree with the directory `locked`, which cannot be opened and holds
`report-old.txt`, followed by the file `report.txt`. -/
def lockedTree : Forest :=
  Forest.dir ⟨⟨true, ["home", "locked"]⟩, FileType.directory, 4096, 0o000⟩ false
    (Forest.file ⟨⟨true, ["home", "locked", "report-old.txt"]⟩, FileType.regular, 9, 0o644⟩
      Forest.nil)
    (Forest.file ⟨⟨true, ["home", "report.txt"]⟩, FileType.regular, 1536, 0o644⟩ Forest.nil)

/-! # Theorems -/

theorem excessBits_of_lt (fuel n : Nat) (h : n < 2 ^ 53) : excessBits fuel n = 0 := by
  cases fuel with
  | zero => rfl
  | succ f => rw [excessBits, if_pos h]

theorem excessBits_pred_ge (fuel n : Nat) (h : excessBits fuel n ≠ 0) :
    2 ^ 53 ≤ n / 2 ^ (excessBits fuel n - 1) := by
  induction fuel generalizing n with
  | zero => simp [excessBits] at h
  | succ f ih =>
    by_cases hn : n < 2 ^ 53
    · rw [excessBits, if_pos hn] at h
      exact absurd rfl h
    · rw [excessBits, if_neg hn]
      by_cases he : excessBits f (n / 2) = 0
      · rw [he, Nat.zero_add, Nat.sub_self, pow_zero, Nat.div_one]
        exact Nat.le_of_not_lt hn
      · have := ih (n / 2) he
        have e : excessBits f (n / 2) + 1 - 1 = (excessBits f (n / 2) - 1) + 1 := by omega
        have e2 : (2 : Nat) ^ (excessBits f (n / 2) - 1 + 1) = 2 * 2 ^ (excessBits f (n / 2) - 1) := by
          rw [pow_succ, Nat.mul_comm]
        rw [e, e2, ← Nat.div_div_eq_div_mul]
        exact this

theorem toDouble_of_lt (n : Nat) (h : n < 2 ^ 53) : toDouble n = n := by
  simp [toDouble, excessBits_of_lt n n h]

theorem toDouble_ge (n : Nat) (h : 2 ^ 53 ≤ n) : 2 ^ 53 ≤ toDouble n := by
  unfold toDouble
  by_cases he : excessBits n n = 0
  · rw [if_pos he]; exact h
  · rw [if_neg he]
    have hp := excessBits_pred_ge n n he
    set sh := excessBits n n with hsh
    have e : 2 ^ sh = 2 ^ (sh - 1) * 2 := by
      rw [← pow_succ]; congr 1; omega
    have hq : 2 ^ 52 ≤ n / 2 ^ sh := by
      rw [e, ← Nat.div_div_eq_div_mul]; omega
    have hpos : 2 ≤ 2 ^ sh := by
      rw [e]; have := Nat.one_le_two_pow (n := sh - 1); omega
    have key : 2 ^ 53 ≤ n / 2 ^ sh * 2 ^ sh := by
      calc 2 ^ 53 = 2 ^ 52 * 2 := by norm_num
        _ ≤ n / 2 ^ sh * 2 ^ sh := Nat.mul_le_mul hq hpos
    dsimp only
    split_ifs
    · exact le_trans key (Nat.mul_le_mul_right _ (Nat.le_succ _))
    · exact key

theorem excessBits_quotient_lt (fuel n : Nat) (h : n < 2 ^ 53 * 2 ^ fuel) :
    n / 2 ^ excessBits fuel n < 2 ^ 53 := by
  induction fuel generalizing n with
  | zero =>
    rw [excessBits, pow_zero, Nat.div_one]
    rw [pow_zero, Nat.mul_one] at h
    exact h
  | succ f ih =>
    by_cases hn : n < 2 ^ 53
    · rw [excessBits, if_pos hn, pow_zero, Nat.div_one]
      exact hn
    · rw [excessBits, if_neg hn]
      have h2 : n / 2 < 2 ^ 53 * 2 ^ f := by
        have e2 : 2 ^ 53 * 2 ^ (f + 1) = 2 * (2 ^ 53 * 2 ^ f) := by
          rw [Nat.pow_succ 2 f]; ring
        rw [e2] at h
        omega
      have e : (2 : Nat) ^ (excessBits f (n / 2) + 1) = 2 * 2 ^ excessBits f (n / 2) := by
        rw [pow_succ, Nat.mul_comm]
      rw [e, ← Nat.div_div_eq_div_mul]
      exact ih (n / 2) h2

/-- The value `toDouble n` is a `double`, `q * 2 ^ sh` with a significand of at
most 53 bits, and no other such multiple of `2 ^ sh` is nearer to `n`. -/
theorem toDouble_nearest (n : Nat) :
    ∃ q sh : Nat, toDouble n = q * 2 ^ sh ∧ q ≤ 2 ^ 53 ∧
      2 * (toDouble n - n) ≤ 2 ^ sh ∧ 2 * (n - toDouble n) ≤ 2 ^ sh := by
  by_cases he : excessBits n n = 0
  · have hlt : n < 2 ^ 53 := by
      have h := excessBits_quotient_lt n n
        (lt_of_lt_of_le (Nat.lt_two_pow n) (Nat.le_mul_of_pos_left _ (by positivity)))
      rw [he, pow_zero, Nat.div_one] at h
      exact h
    refine ⟨n, 0, ?_, hlt.le, ?_, ?_⟩ <;> rw [toDouble_of_lt n hlt] <;> simp
  · have hq : n / 2 ^ excessBits n n < 2 ^ 53 :=
      excessBits_quotient_lt n n
        (lt_of_lt_of_le (Nat.lt_two_pow n) (Nat.le_mul_of_pos_left _ (by positivity)))
    have hdm := Nat.div_add_mod n (2 ^ excessBits n n)
    have hr : n % 2 ^ excessBits n n < 2 ^ excessBits n n := Nat.mod_lt _ (by positivity)
    have e : 2 ^ excessBits n n = 2 * 2 ^ (excessBits n n - 1) := by
      rw [← pow_succ']; congr 1; omega
    have hmul : 2 ^ excessBits n n * (n / 2 ^ excessBits n n) =
        n / 2 ^ excessBits n n * 2 ^ excessBits n n := Nat.mul_comm _ _
    unfold toDouble
    dsimp only
    rw [if_neg he]
    split_ifs with hc
    · refine ⟨n / 2 ^ excessBits n n + 1, excessBits n n, rfl, by omega, ?_, ?_⟩
      · rw [Nat.add_mul, Nat.one_mul]
        rcases hc with hc | ⟨hc, _⟩ <;> omega
      · rw [Nat.add_mul, Nat.one_mul]
        omega
    · refine ⟨n / 2 ^ excessBits n n, excessBits n n, rfl, by omega, ?_, ?_⟩
      · omega
      · have hle : n % 2 ^ excessBits n n ≤ 2 ^ (excessBits n n - 1) := by
          have : ¬ 2 ^ (excessBits n n - 1) < n % 2 ^ excessBits n n := fun h => hc (Or.inl h)
          omega
        omega

theorem toDouble_threshold (n t : Nat) (ht : t ≤ 2 ^ 53) : t ≤ toDouble n ↔ t ≤ n := by
  by_cases h : n < 2 ^ 53
  · rw [toDouble_of_lt n h]
  · have h1 := toDouble_ge n (Nat.le_of_not_lt h)
    constructor <;> intro _ <;> omega

theorem scaled_cases (n : Nat) :
    scaled n =
      if n < 1024 then ⟨⟨toDouble n, 0⟩, 0⟩
      else if n < 1024 ^ 2 then ⟨⟨toDouble n, 10⟩, 1⟩
      else if n < 1024 ^ 3 then ⟨⟨toDouble n, 20⟩, 2⟩
      else if n < 1024 ^ 4 then ⟨⟨toDouble n, 30⟩, 3⟩
      else ⟨⟨toDouble n, 40⟩, 4⟩ := by
  have h1 := toDouble_threshold n 1024 (by norm_num)
  have h2 := toDouble_threshold n (1024 ^ 2) (by norm_num)
  have h3 := toDouble_threshold n (1024 ^ 3) (by norm_num)
  have h4 := toDouble_threshold n (1024 ^ 4) (by norm_num)
  simp only [scaled, sizeLoop]
  norm_num at h1 h2 h3 h4 ⊢
  split_ifs <;> first | rfl | omega

theorem sizeLoop_fuel (fuel : Nat) (st : SizeState) (h : 4 ≤ fuel + st.unitIndex) :
    sizeLoop (fuel + 1) st = sizeLoop fuel st := by
  induction fuel generalizing st with
  | zero =>
    have h4 : ¬ st.unitIndex < 4 := by omega
    simp [sizeLoop, h4]
  | succ f ih =>
    by_cases hc : 1024 * 2 ^ st.fileSize.shift ≤ st.fileSize.num ∧ st.unitIndex < 4
    · have e1 : sizeLoop (f + 1 + 1) st =
          sizeLoop (f + 1) ⟨⟨st.fileSize.num, st.fileSize.shift + 10⟩, st.unitIndex + 1⟩ := by
        rw [sizeLoop, if_pos hc]
      have e2 : sizeLoop (f + 1) st =
          sizeLoop f ⟨⟨st.fileSize.num, st.fileSize.shift + 10⟩, st.unitIndex + 1⟩ := by
        rw [sizeLoop, if_pos hc]
      rw [e1, e2]
      exact ih _ (by simp only; omega)
    · have e1 : sizeLoop (f + 1 + 1) st = st := by rw [sizeLoop, if_neg hc]
      have e2 : sizeLoop (f + 1) st = st := by rw [sizeLoop, if_neg hc]
      rw [e1, e2]

theorem sizeLoop_enough (fuel : Nat) (d : Nat) (h : 4 ≤ fuel) :
    sizeLoop fuel ⟨⟨d, 0⟩, 0⟩ = sizeLoop 4 ⟨⟨d, 0⟩, 0⟩ := by
  induction fuel with
  | zero => omega
  | succ f ih =>
    rcases Nat.eq_or_lt_of_le h with h4 | h4
    · have : f = 3 := by omega
      subst this; rfl
    · rw [sizeLoop_fuel f _ (by simp only; omega)]
      exact ih (by omega)

theorem hundredths_nearest (x : DoubleVal) :
    |(hundredths x : ℚ) - 100 * x.toRat| ≤ 1 / 2 := by
  have hD : (0 : ℚ) < 2 ^ x.shift := by positivity
  have hdiv := Nat.div_add_mod (x.num * 100) (2 ^ x.shift)
  have hr : x.num * 100 % 2 ^ x.shift < 2 ^ x.shift := Nat.mod_lt _ (by positivity)
  have hq : (100 * x.toRat) =
      ((x.num * 100 / 2 ^ x.shift : Nat) : ℚ) + ((x.num * 100 % 2 ^ x.shift : Nat) : ℚ) / 2 ^ x.shift := by
    have : ((x.num * 100 : Nat) : ℚ) =
        (2 ^ x.shift : ℚ) * ((x.num * 100 / 2 ^ x.shift : Nat) : ℚ) + ((x.num * 100 % 2 ^ x.shift : Nat) : ℚ) := by
      exact_mod_cast hdiv.symm
    unfold DoubleVal.toRat
    field_simp
    push_cast at this ⊢
    linarith
  rw [hq]
  unfold hundredths
  dsimp only
  set q := x.num * 100 / 2 ^ x.shift
  set r := x.num * 100 % 2 ^ x.shift
  have hr0 : (0 : ℚ) ≤ (r : ℚ) / 2 ^ x.shift := by positivity
  have hr1 : (r : ℚ) / 2 ^ x.shift < 1 := by
    rw [div_lt_one hD]; exact_mod_cast hr
  split_ifs with hc
  · have h2 : (2 : ℚ) ^ x.shift ≤ 2 * r := by
      rcases hc with hc | ⟨hc, _⟩
      · exact_mod_cast hc.le
      · exact_mod_cast hc.le
    have h3 : (1 : ℚ) / 2 ≤ (r : ℚ) / 2 ^ x.shift := by
      rw [le_div_iff₀ hD]; linarith
    rw [abs_le]; push_cast; constructor <;> linarith
  · have h2 : 2 * (r : ℚ) ≤ 2 ^ x.shift := by
      have : ¬ 2 ^ x.shift < 2 * r := fun h => hc (Or.inl h)
      exact_mod_cast Nat.le_of_not_lt this
    have h3 : (r : ℚ) / 2 ^ x.shift ≤ 1 / 2 := by
      rw [div_le_iff₀ hD]; linarith
    rw [abs_le]; constructor <;> linarith

/-- C2 (as amended): the unit index is `min 4 (Nat.log 1024 n)`, where
`Nat.log 1024 n` counts how often `n` can be divided by 1024 while the running
value is at least 1024; the number rendered is `toDouble n / 1024 ^ k`, the byte
count after its conversion to `double`, which is `n` itself up to `2 ^ 53` and
otherwise a nearest multiple `q * 2 ^ sh` with `q` of at most 53 bits; the
unit is `B` exactly below 1024 and `TB` from `1024 ^ 4` on; four iterations of
the loop always suffice. -/
theorem formatFileSize_unit_and_value (n : Nat) :
    (scaled n).unitIndex = min 4 (Nat.log 1024 n) ∧
    (scaled n).fileSize.toRat = (toDouble n : ℚ) / 1024 ^ (scaled n).unitIndex ∧
    (n ≤ 2 ^ 53 → toDouble n = n) ∧
    formatFileSize n =
      printf2f (scaled n).fileSize ++ " " ++ units.getD (scaled n).unitIndex "" ∧
    (units.getD (scaled n).unitIndex "" = "B" ↔ n < 1024) ∧
    (1024 ^ 4 ≤ n → units.getD (scaled n).unitIndex "" = "TB") ∧
    (∀ fuel, 4 ≤ fuel → sizeLoop fuel ⟨⟨toDouble n, 0⟩, 0⟩ = scaled n) ∧
    (∃ q sh : Nat, toDouble n = q * 2 ^ sh ∧ q ≤ 2 ^ 53 ∧
      2 * (toDouble n - n) ≤ 2 ^ sh ∧ 2 * (n - toDouble n) ≤ 2 ^ sh) := by
  have hc := scaled_cases n
  refine ⟨?_, ?_, ?_, rfl, ?_, ?_, fun fuel hf => sizeLoop_enough fuel _ hf, toDouble_nearest n⟩
  · split_ifs at hc with h1 h2 h3 h4
    · rw [hc, Nat.log_of_lt h1]; rfl
    · rw [hc, Nat.log_eq_of_pow_le_of_lt_pow (m := 1) (by omega) h2]; rfl
    · rw [hc, Nat.log_eq_of_pow_le_of_lt_pow (m := 2) (by omega) h3]; rfl
    · rw [hc, Nat.log_eq_of_pow_le_of_lt_pow (m := 3) (by omega) h4]; rfl
    · rw [hc]
      have := Nat.le_log_of_pow_le (b := 1024) (x := 4) (by norm_num) (Nat.le_of_not_lt h4)
      simp only
      omega
  · split_ifs at hc <;> rw [hc] <;> simp only [DoubleVal.toRat] <;> norm_num
  · intro h
    rcases Nat.eq_or_lt_of_le h with h | h
    · subst h; decide
    · exact toDouble_of_lt n h
  · split_ifs at hc with h1 h2 h3 h4 <;> rw [hc] <;> simp [units, h1]
  · intro h
    have h4 : ¬ n < 1024 ^ 4 := by omega
    have h3 : ¬ n < 1024 ^ 3 := by omega
    have h2 : ¬ n < 1024 ^ 2 := by omega
    have h1 : ¬ n < 1024 := by omega
    rw [if_neg h1, if_neg h2, if_neg h3, if_neg h4] at hc
    rw [hc]; rfl

/-- C2, as stated, fails: the byte count is converted to `double` first, so
for `n = 2 ^ 53 + 2 ^ 37 + 1` the value scaled and printed is `8192.125`
(`"8192.12 TB"`), not `n / 1024 ^ 4`, whose nearest two-decimal rendering is
`8192.13`. -/
theorem formatFileSize_not_exact_quotient :
    (scaled (2 ^ 53 + 2 ^ 37 + 1)).unitIndex = 4 ∧
    (scaled (2 ^ 53 + 2 ^ 37 + 1)).fileSize.toRat ≠ ((2 ^ 53 + 2 ^ 37 + 1 : Nat) : ℚ) / 1024 ^ 4 ∧
    formatFileSize (2 ^ 53 + 2 ^ 37 + 1) = "8192.12 TB" ∧
    hundredths ⟨2 ^ 53 + 2 ^ 37 + 1, 40⟩ = 819213 ∧
    |((2 ^ 53 + 2 ^ 37 + 1 : Nat) : ℚ) / 1024 ^ 4 - 819213 / 100| < 1 / 200 ∧
    1 / 200 < |((2 ^ 53 + 2 ^ 37 + 1 : Nat) : ℚ) / 1024 ^ 4 - 819212 / 100| := by
  have hs : scaled (2 ^ 53 + 2 ^ 37 + 1) = ⟨⟨2 ^ 53 + 2 ^ 37, 40⟩, 4⟩ := by decide
  refine ⟨by rw [hs], ?_, by decide, by decide, ?_, ?_⟩
  · rw [hs]; simp only [DoubleVal.toRat]; norm_num
  · rw [abs_lt]; constructor <;> norm_num
  · rw [lt_abs]; left; norm_num

/-- Witness of C2 (as amended): a byte count below `2 ^ 53` is converted
exactly, and one at the `TB` boundary is shown in `TB`. -/
theorem formatFileSize_unit_and_value_witness :
    toDouble 1536 = 1536 ∧ units.getD (scaled (1024 ^ 5)).unitIndex "" = "TB" :=
  ⟨(formatFileSize_unit_and_value 1536).2.2.1 (by decide),
   (formatFileSize_unit_and_value (1024 ^ 5)).2.2.2.2.2.1 (by decide)⟩

/-- C3: the text is the integer part, a point, exactly two decimal digits, one
space and the unit name, where the printed number is the scaled value rounded
to the nearest hundredth; `1023`, `1024` and `1024 ^ 4` bytes give
`"1023.00 B"`, `"1.00 KB"` and `"1.00 TB"`. -/
theorem formatFileSize_two_decimals (n : Nat) :
    (∃ ip d1 d0 : Nat, d1 < 10 ∧ d0 < 10 ∧
      formatFileSize n =
        Nat.repr ip ++ "." ++ String.mk [Nat.digitChar d1, Nat.digitChar d0] ++ " " ++
          units.getD (scaled n).unitIndex "" ∧
      |((100 * ip + 10 * d1 + d0 : Nat) : ℚ) / 100 - (scaled n).fileSize.toRat| ≤ 1 / 200) ∧
    formatFileSize 1023 = "1023.00 B" ∧
    formatFileSize 1024 = "1.00 KB" ∧
    formatFileSize (1024 ^ 4) = "1.00 TB" := by
  refine ⟨?_, by decide, by decide, by decide⟩
  refine ⟨hundredths (scaled n).fileSize / 100, hundredths (scaled n).fileSize % 100 / 10,
    hundredths (scaled n).fileSize % 100 % 10, by omega, by omega, rfl, ?_⟩
  have hn := hundredths_nearest (scaled n).fileSize
  have e : 100 * (hundredths (scaled n).fileSize / 100) +
      10 * (hundredths (scaled n).fileSize % 100 / 10) +
      hundredths (scaled n).fileSize % 100 % 10 = hundredths (scaled n).fileSize := by omega
  rw [e]
  rw [abs_le] at hn ⊢
  constructor <;> linarith [hn.1, hn.2]

/-! ### The file-name order -/

theorem lexLess_irrefl (s : List Char) : lexLess s s = false := by
  induction s with
  | nil => rfl
  | cons a s ih => simp [lexLess, ih]

theorem lexLess_trans : ∀ a b c : List Char,
    lexLess a b = true → lexLess b c = true → lexLess a c = true := by
  intro a
  induction a with
  | nil =>
    intro b c hab hbc
    cases c with
    | nil => cases b <;> simp [lexLess] at hbc
    | cons z c => rfl
  | cons x a ih =>
    intro b c hab hbc
    cases b with
    | nil => simp [lexLess] at hab
    | cons y b =>
      cases c with
      | nil => simp [lexLess] at hbc
      | cons z c =>
        simp only [lexLess] at hab hbc ⊢
        by_cases h1 : x.toNat < y.toNat
        · by_cases h2 : y.toNat < z.toNat
          · have : x.toNat < z.toNat := by omega
            simp [this]
          · by_cases h3 : z.toNat < y.toNat
            · simp [h2, h3] at hbc
            · have : x.toNat < z.toNat := by omega
              simp [this]
        · by_cases h1' : y.toNat < x.toNat
          · simp [h1, h1'] at hab
          · simp only [h1, h1', if_false] at hab
            by_cases h2 : y.toNat < z.toNat
            · have : x.toNat < z.toNat := by omega
              simp [this]
            · by_cases h3 : z.toNat < y.toNat
              · simp [h2, h3] at hbc
              · simp only [h2, h3, if_false] at hbc
                have e1 : ¬ x.toNat < z.toNat := by omega
                have e2 : ¬ z.toNat < x.toNat := by omega
                simp only [e1, e2, if_false]
                exact ih b c hab hbc

theorem char_eq_of_toNat_eq (x y : Char) (h : x.toNat = y.toNat) : x = y := by
  apply Char.ext
  apply UInt32.ext
  exact h

theorem lexLess_total : ∀ a b : List Char, a ≠ b → lexLess a b = true ∨ lexLess b a = true := by
  intro a
  induction a with
  | nil =>
    intro b h
    cases b with
    | nil => exact absurd rfl h
    | cons y b => left; rfl
  | cons x a ih =>
    intro b h
    cases b with
    | nil => right; rfl
    | cons y b =>
      simp only [lexLess]
      by_cases h1 : x.toNat < y.toNat
      · left; simp [h1]
      · by_cases h2 : y.toNat < x.toNat
        · right; simp [h2]
        · have hxy : x = y := char_eq_of_toNat_eq x y (by omega)
          subst hxy
          have hab : a ≠ b := fun e => h (by rw [e])
          simp only [h1, if_false]
          exact ih b hab

theorem lexLess_asymm (a b : List Char) (h : lexLess a b = true) : lexLess b a = false := by
  cases hba : lexLess b a with
  | false => rfl
  | true =>
    have := lexLess_trans a b a h hba
    rw [lexLess_irrefl] at this
    exact absurd this (by decide)

/-- The order is negatively transitive: it is a strict total order. -/
theorem lexLess_negtrans (a b c : List Char)
    (hab : lexLess b a = false) (hbc : lexLess c b = false) : lexLess c a = false := by
  cases hca : lexLess c a with
  | false => rfl
  | true =>
    by_cases e1 : a = b
    · subst e1; rw [hca] at hbc; exact absurd hbc (by decide)
    · rcases lexLess_total a b e1 with h | h
      · have := lexLess_trans c a b hca h
        rw [this] at hbc; exact absurd hbc (by decide)
      · rw [h] at hab; exact absurd hab (by decide)

/-! ### The comparator of `listFiles` and the sorted listing -/

theorem entryLess_iff (a b : DirEntry) :
    entryLess a b = true ↔
      (a.is_directory = true ∧ b.is_directory = false) ∨
      (a.is_directory = b.is_directory ∧ lexLess a.name.toList b.name.toList = true) := by
  unfold entryLess
  cases ha : a.is_directory <;> cases hb : b.is_directory <;> simp

theorem entryLess_eq_false_iff (a b : DirEntry) :
    entryLess a b = false ↔
      (a.is_directory = false ∧ b.is_directory = true) ∨
      (a.is_directory = b.is_directory ∧ lexLess a.name.toList b.name.toList = false) := by
  unfold entryLess
  cases ha : a.is_directory <;> cases hb : b.is_directory <;> simp

theorem entryLess_asymm (a b : DirEntry) (h : entryLess a b = true) : entryLess b a = false := by
  rw [entryLess_iff] at h
  rw [entryLess_eq_false_iff]
  rcases h with ⟨h1, h2⟩ | ⟨h1, h2⟩
  · exact Or.inl ⟨h2, h1⟩
  · exact Or.inr ⟨h1.symm, lexLess_asymm _ _ h2⟩

theorem entryLess_negtrans (a b c : DirEntry)
    (hab : entryLess b a = false) (hbc : entryLess c b = false) : entryLess c a = false := by
  rw [entryLess_eq_false_iff] at hab hbc ⊢
  rcases hab with ⟨h1, h2⟩ | ⟨h1, h2⟩ <;> rcases hbc with ⟨h3, h4⟩ | ⟨h3, h4⟩
  · rw [h1] at h4; exact absurd h4 (by decide)
  · left; exact ⟨by rw [h3, h1], h2⟩
  · left; exact ⟨h3, by rw [← h1, h4]⟩
  · right; exact ⟨by rw [h3, h1], lexLess_negtrans _ _ _ h2 h4⟩

theorem entryLess_of_name_ne (a b : DirEntry) (h : a.name ≠ b.name)
    (hba : entryLess b a = false) : entryLess a b = true := by
  rw [entryLess_eq_false_iff] at hba
  rw [entryLess_iff]
  rcases hba with ⟨h1, h2⟩ | ⟨h1, h2⟩
  · exact Or.inl ⟨h2, h1⟩
  · right
    refine ⟨h1.symm, ?_⟩
    have hne : a.name.toList ≠ b.name.toList := fun e => h (String.ext e)
    rcases lexLess_total _ _ hne with h3 | h3
    · exact h3
    · rw [h3] at h2; exact absurd h2 (by decide)

theorem entryLess_total (a b : DirEntry) : entryLess b a = false ∨ entryLess a b = false := by
  cases h : entryLess b a with
  | false => exact Or.inl rfl
  | true => exact Or.inr (entryLess_asymm b a h)

theorem entryLess_antisymm (a b : DirEntry) (hab : entryLess a b = true)
    (hba : entryLess b a = true) : a = b := by
  have := entryLess_asymm a b hab
  rw [hba] at this
  exact absurd this (by decide)

theorem stdSort_perm (l : List DirEntry) : (stdSort entryLess l).Perm l :=
  List.perm_insertionSort _ l

theorem stdSort_sorted (l : List DirEntry) :
    (stdSort entryLess l).Pairwise (fun a b => entryLess b a = false) := by
  haveI : IsTotal DirEntry (fun a b => entryLess b a = false) := ⟨entryLess_total⟩
  haveI : IsTrans DirEntry (fun a b => entryLess b a = false) := ⟨entryLess_negtrans⟩
  exact List.sorted_insertionSort (fun a b => entryLess b a = false) l

theorem strict_of_sorted (out : List DirEntry) (hn : (out.map DirEntry.name).Nodup)
    (hs : out.Pairwise (fun a b => entryLess b a = false)) :
    out.Pairwise (fun a b => entryLess a b = true) := by
  have hp : out.Pairwise (fun a b => a.name ≠ b.name) := by
    rw [List.Nodup, List.pairwise_map] at hn
    exact hn
  exact (hs.and hp).imp (fun h => entryLess_of_name_ne _ _ h.2 h.1)

theorem stdSort_strict (l : List DirEntry) (hn : (l.map DirEntry.name).Nodup) :
    (stdSort entryLess l).Pairwise (fun a b => entryLess a b = true) :=
  strict_of_sorted _ (((stdSort_perm l).map DirEntry.name).nodup_iff.mpr hn) (stdSort_sorted l)

/-- Whatever algorithm `std::sort` runs, its result on entries with distinct
names is the one of `stdSort`: a permutation of the input in which no element
is put before one that `comp` places ahead of it. -/
theorem stdSort_any (l out : List DirEntry) (hn : (l.map DirEntry.name).Nodup)
    (hp : out.Perm l) (hs : out.Pairwise (fun a b => entryLess b a = false)) :
    out = stdSort entryLess l := by
  haveI : IsAntisymm DirEntry (fun a b => entryLess a b = true) := ⟨entryLess_antisymm⟩
  exact List.eq_of_perm_of_sorted (hp.trans (stdSort_perm l).symm)
    (strict_of_sorted out ((hp.map DirEntry.name).nodup_iff.mpr hn) hs) (stdSort_strict l hn)

theorem stdSort_unique (l₁ l₂ : List DirEntry) (hp : l₁.Perm l₂)
    (hn : (l₂.map DirEntry.name).Nodup) : stdSort entryLess l₁ = stdSort entryLess l₂ := by
  have hn1 : (l₁.map DirEntry.name).Nodup := (hp.map DirEntry.name).nodup_iff.mpr hn
  have hperm : (stdSort entryLess l₁).Perm (stdSort entryLess l₂) :=
    ((stdSort_perm l₁).trans hp).trans (stdSort_perm l₂).symm
  haveI : IsAntisymm DirEntry (fun a b => entryLess a b = true) := ⟨entryLess_antisymm⟩
  exact List.eq_of_perm_of_sorted hperm (stdSort_strict l₁ hn1) (stdSort_strict l₂ hn)

theorem printRows_of_sizes (l : List DirEntry) (h : ∀ e ∈ l, e.type ≠ FileType.other) :
    (printRows l).rows.map some = l.map listRow ∧ (printRows l).error = false := by
  induction l with
  | nil => exact ⟨rfl, rfl⟩
  | cons e l ih =>
    have he : e.type ≠ FileType.other := h e (List.mem_cons_self _ _)
    have ih2 := ih (fun x hx => h x (List.mem_cons_of_mem _ hx))
    have hr : ∃ row, listRow e = some row := by
      unfold listRow DirEntry.file_size DirEntry.is_directory
      cases ht : e.type
      · simp
      · simp
      · exact absurd ht he
    obtain ⟨row, hrow⟩ := hr
    simp only [printRows, hrow, List.map_cons]
    exact ⟨by rw [ih2.1], ih2.2⟩

/-- The listing of a directory that holds only directories and regular files
(C1 on the inputs on which `file_size` does not throw): the rows are those of
a permutation of the entries, directories first and names strictly ascending
inside each group, and they do not depend on the order of iteration. -/
theorem listFiles_sorted (yielded : List DirEntry)
    (hnames : (yielded.map DirEntry.name).Nodup)
    (hsizes : ∀ e ∈ yielded, e.type ≠ FileType.other) :
    ∃ sorted : List DirEntry, sorted.Perm yielded ∧
      (listFiles yielded).rows.map some = sorted.map listRow ∧
      (listFiles yielded).error = false ∧
      sorted.Pairwise (fun a b =>
        (a.is_directory = true ∧ b.is_directory = false) ∨
        (a.is_directory = b.is_directory ∧ lexLess a.name.toList b.name.toList = true)) ∧
      ∀ yielded2 : List DirEntry, yielded2.Perm yielded → listFiles yielded2 = listFiles yielded := by
  refine ⟨stdSort entryLess yielded, stdSort_perm yielded, ?_, ?_, ?_, ?_⟩
  · exact (printRows_of_sizes _ (fun e he => hsizes e ((stdSort_perm yielded).mem_iff.mp he))).1
  · exact (printRows_of_sizes _ (fun e he => hsizes e ((stdSort_perm yielded).mem_iff.mp he))).2
  · exact (stdSort_strict yielded hnames).imp (fun h => (entryLess_iff _ _).mp h)
  · intro yielded2 hp
    unfold listFiles
    rw [stdSort_unique yielded2 yielded hp hnames]

/-- C1 at a failing input: with an entry that is neither a directory nor a
regular file, `file_size` throws in the printing loop, and `listFiles` prints
one row for three entries before it reports the error. -/
theorem listFiles_stops_at_special_file :
    (brokenLinkDir.map DirEntry.name).Nodup ∧
    listFiles brokenLinkDir = ⟨[⟨"[DIR]", "docs", "---", "rwxr-xr-x"⟩], true⟩ ∧
    (listFiles brokenLinkDir).rows.length ≠ brokenLinkDir.length := by
  decide

/-! ### `searchFiles` -/

theorem matchesAt_iff (term s : List Char) : matchesAt term s = true ↔ term <+: s := by
  induction term generalizing s with
  | nil => simp [matchesAt]
  | cons t term ih =>
    cases s with
    | nil => simp [matchesAt]
    | cons c s => simp [matchesAt, ih, List.cons_prefix_cons]

theorem strFind_isSome_iff (term s : List Char) :
    (strFind term s).isSome = true ↔ term <:+: s := by
  induction s with
  | nil =>
    unfold strFind
    by_cases h : matchesAt term [] = true
    · have e := List.prefix_nil.mp ((matchesAt_iff term []).mp h)
      subst e
      simp [matchesAt]
    · have hne : ¬ term <+: [] := fun hp => h ((matchesAt_iff term []).mpr hp)
      have : ¬ term <:+: [] := by
        intro hi
        rw [List.infix_nil] at hi
        exact hne (by rw [hi])
      simp only [h]
      simpa using this
  | cons c s ih =>
    unfold strFind
    rw [List.infix_cons_iff]
    by_cases h : matchesAt term (c :: s) = true
    · simp [h, (matchesAt_iff term (c :: s)).mp h]
    · have hne : ¬ term <+: c :: s := fun hp => h ((matchesAt_iff term (c :: s)).mpr hp)
      simp only [h, if_false, Option.isSome_map', Bool.false_eq_true]
      rw [ih]
      constructor
      · exact Or.inr
      · rintro (hp | hi)
        · exact absurd hp hne
        · exact hi

theorem wrapInt32_of_range (x : Int) (h0 : 0 ≤ x) (h1 : x < 2 ^ 31) : wrapInt32 x = x := by
  unfold wrapInt32
  norm_num at h1 ⊢
  omega

theorem searchLoop_entries (searchTerm : String) (visited : List DirEntry) (st : SearchState) :
    (searchLoop searchTerm (visited.map WalkStep.entry) st).2 = false ∧
    (searchLoop searchTerm (visited.map WalkStep.entry) st).1.lines =
      st.lines ++ (visited.filter
        (fun e => decide (searchTerm.toList <:+: e.name.toList))).map searchLine ∧
    (0 ≤ st.count →
      st.count + ((visited.filter
        (fun e => decide (searchTerm.toList <:+: e.name.toList))).length : Int) < 2 ^ 31 →
      (searchLoop searchTerm (visited.map WalkStep.entry) st).1.count =
        st.count + ((visited.filter
          (fun e => decide (searchTerm.toList <:+: e.name.toList))).length : Int)) := by
  induction visited generalizing st with
  | nil => simp [searchLoop]
  | cons e rest ih =>
    simp only [List.map_cons, searchLoop]
    by_cases hm : searchTerm.toList <:+: e.name.toList
    · have hf : (strFind searchTerm.toList e.path.filename.toList).isSome = true :=
        (strFind_isSome_iff _ _).mpr hm
      have hstep : searchStep searchTerm st e =
          ⟨st.lines ++ [searchLine e], wrapInt32 (st.count + 1)⟩ := by
        unfold searchStep
        dsimp only
        rw [if_pos hf]
        rfl
      rw [hstep, List.filter_cons_of_pos (by simpa using hm)]
      obtain ⟨h1, h2, h3⟩ := ih ⟨st.lines ++ [searchLine e], wrapInt32 (st.count + 1)⟩
      refine ⟨h1, ?_, ?_⟩
      · rw [h2]; simp
      · intro h0 hlt
        simp only [List.length_cons, Nat.cast_add, Nat.cast_one] at hlt ⊢
        have hw : wrapInt32 (st.count + 1) = st.count + 1 :=
          wrapInt32_of_range _ (by omega) (by omega)
        rw [hw] at h3 ⊢
        dsimp only at h3
        rw [h3 (by omega) (by omega)]
        ring
    · have hf : (strFind searchTerm.toList e.path.filename.toList).isSome = false := by
        cases h : (strFind searchTerm.toList e.path.filename.toList).isSome with
        | false => rfl
        | true => exact absurd ((strFind_isSome_iff _ _).mp h) hm
      have hstep : searchStep searchTerm st e = st := by
        unfold searchStep
        dsimp only
        rw [hf]
        rfl
      rw [hstep, List.filter_cons_of_neg (by simpa using hm)]
      exact ih st

/-- C4: on a walk that visits `visited`, `searchFiles` prints one line for
each entry whose file name contains the term as a contiguous run of equal
characters, in visiting order and no other line; while fewer than `2 ^ 31`
entries match, the closing message carries their number (or says that nothing
was found when it is zero); for `report.txt`, `reports/`, `other.txt` and the
term `report` the first two are reported. -/
theorem searchFiles_reports_matches (searchTerm : String) (visited : List DirEntry) :
    (searchFiles searchTerm (visited.map WalkStep.entry)).1 =
      (visited.filter (fun e => decide (searchTerm.toList <:+: e.name.toList))).map searchLine ∧
    ((visited.filter (fun e => decide (searchTerm.toList <:+: e.name.toList))).length < 2 ^ 31 →
      (searchFiles searchTerm (visited.map WalkStep.entry)).2 =
        if (visited.filter (fun e => decide (searchTerm.toList <:+: e.name.toList))).length = 0
        then SearchSummary.noFilesFound
        else SearchSummary.found
          ((visited.filter (fun e => decide (searchTerm.toList <:+: e.name.toList))).length : Int)) ∧
    searchFiles "report" (reportWalk.map WalkStep.entry) =
      ([("[FILE]", ⟨true, ["home", "report.txt"]⟩), ("[DIR]", ⟨true, ["home", "reports"]⟩)],
        SearchSummary.found 2) := by
  obtain ⟨h1, h2, h3⟩ := searchLoop_entries searchTerm visited ⟨[], 0⟩
  refine ⟨?_, ?_, by decide⟩
  · unfold searchFiles
    simp only [h1, h2]
    split_ifs <;> simp
  · intro hlt
    have hc := h3 (le_refl _) (by
      simp only [zero_add]
      exact_mod_cast hlt)
    simp only [zero_add] at hc
    unfold searchFiles
    dsimp only
    rw [h1, hc]
    by_cases hz : (visited.filter (fun e => decide (searchTerm.toList <:+: e.name.toList))).length = 0
    · rw [hz]; rfl
    · have hne : ((visited.filter
          (fun e => decide (searchTerm.toList <:+: e.name.toList))).length : Int) ≠ 0 := by
        exact_mod_cast hz
      rw [if_neg (by decide), if_neg hne, if_neg hz]

/-- Witness of C4: the walk over `report.txt`, `reports/` and `other.txt` has
two matches for `report`, and the closing message counts two. -/
theorem searchFiles_reports_matches_witness :
    (searchFiles "report" (reportWalk.map WalkStep.entry)).2 =
      if (reportWalk.filter (fun e => decide ("report".toList <:+: e.name.toList))).length = 0
      then SearchSummary.noFilesFound
      else SearchSummary.found
        ((reportWalk.filter (fun e => decide ("report".toList <:+: e.name.toList))).length : Int) :=
  (searchFiles_reports_matches "report" reportWalk).2.1 (by decide)

/-! ### The file-system table -/

theorem status_erase (fs : FileSystem) (p q : Path) :
    status (erase fs p) q = if q = p then none else status fs q := by
  induction fs with
  | nil => simp [erase, status]
  | cons e rest ih =>
    obtain ⟨k, n⟩ := e
    unfold erase at ih ⊢
    by_cases hk : k = p
    · subst hk
      rw [List.filter_cons_of_neg (by simp), ih]
      by_cases hq : q = k
      · simp [hq]
      · have : ¬ k = q := fun h => hq h.symm
        simp [hq, status, this]
    · rw [List.filter_cons_of_pos (by simpa using hk)]
      simp only [status]
      by_cases hkq : k = q
      · subst hkq; simp [hk]
      · simp only [hkq, if_false]; exact ih

theorem status_store (fs : FileSystem) (p q : Path) (n : Node) :
    status (store fs p n) q = if q = p then some n else status fs q := by
  unfold store
  simp only [status]
  by_cases h : p = q
  · subst h; simp
  · have h2 : ¬ q = p := fun e => h e.symm
    simp only [h, h2, if_false]
    rw [status_erase, if_neg h2]

theorem pathExists_iff (fs : FileSystem) (p : Path) :
    pathExists fs p = true ↔ ∃ n, status fs p = some n := by
  unfold pathExists
  cases status fs p <;> simp

theorem pathExists_false_iff (fs : FileSystem) (p : Path) :
    pathExists fs p = false ↔ status fs p = none := by
  unfold pathExists
  cases status fs p <;> simp

/-! ### `createFile` -/

theorem openForWriting_exists (fs fs' : FileSystem) (p : Path)
    (hno : status fs p = none) (h : openForWriting fs p = some fs') :
    ∃ n, status fs' p = some n := by
  unfold openForWriting at h
  rw [hno] at h
  dsimp only at h
  split_ifs at h
  cases h
  exact ⟨_, by rw [status_store, if_pos rfl]⟩

theorem ofstream_open_exists (fs fs' : FileSystem) (os : Os) (p : Path)
    (hno : status fs p = none) (h : ofstream_open fs os p = some fs') :
    ∃ n, status fs' p = some n := by
  unfold ofstream_open at h
  rw [hno] at h
  dsimp only at h
  cases hl : os.danglingLink p with
  | none =>
    rw [hl] at h
    exact openForWriting_exists fs fs' p hno h
  | some target =>
    rw [hl] at h
    dsimp only at h
    cases ho : openForWriting fs target with
    | none => rw [ho] at h; simp at h
    | some fs'' =>
      rw [ho] at h
      dsimp only at h
      cases hs : status fs'' target with
      | none => rw [hs] at h; simp at h
      | some n =>
        rw [hs] at h
        simp only [Option.map_some', Option.some.injEq] at h
        subst h
        exact ⟨n, by rw [status_store, if_pos rfl]⟩

/-- C9, as stated, fails: `/home/link` is an entry of the directory, a symbolic
link whose target is missing; `fs::exists` does not hold for it, so
`createFile` opens it for writing, creates `/home/target` and reports the
file as created. -/
theorem createFile_through_dangling_link :
    linkOs.danglingLink (homeDir.join (rel "link")) = some ⟨true, ["home", "target"]⟩ ∧
    pathExists homeFs (homeDir.join (rel "link")) = false ∧
    (createFile homeFs linkOs homeDir (rel "link")).2 = Message.created ∧
    status homeFs ⟨true, ["home", "target"]⟩ = none ∧
    status (createFile homeFs linkOs homeDir (rel "link")).1 ⟨true, ["home", "target"]⟩ =
      some ⟨FileType.regular, 0o644, []⟩ := by
  decide

/-- C9 (as amended): `createFile` on a path for which `fs::exists` holds, that
is whose status is found, whatever its type, reports that it exists and
returns the file system as it was, the entry with its content included; so of
two consecutive calls with the same name the second never creates a file, and
reports that the file exists whenever the first call created it, be it
through a dangling link. -/
theorem createFile_existing (fs : FileSystem) (os : Os) (currentPath fileName : Path) :
    (∀ n : Node, status fs (currentPath.join fileName) = some n →
      createFile fs os currentPath fileName = (fs, Message.alreadyExists)) ∧
    (createFile (createFile fs os currentPath fileName).1 os currentPath fileName).2 ≠
      Message.created ∧
    (createFile (createFile fs os currentPath fileName).1 os currentPath fileName).1 =
      (createFile fs os currentPath fileName).1 ∧
    ((createFile fs os currentPath fileName).2 = Message.created →
      createFile (createFile fs os currentPath fileName).1 os currentPath fileName =
        ((createFile fs os currentPath fileName).1, Message.alreadyExists)) := by
  have hex : ∀ (g : FileSystem) (n : Node), status g (currentPath.join fileName) = some n →
      createFile g os currentPath fileName = (g, Message.alreadyExists) := by
    intro g n hn
    have : pathExists g (currentPath.join fileName) = true := (pathExists_iff _ _).mpr ⟨n, hn⟩
    unfold createFile
    dsimp only
    rw [if_pos this]
  refine ⟨hex fs, ?_⟩
  cases hs : status fs (currentPath.join fileName) with
  | some n =>
    rw [hex fs n hs]
    dsimp only
    rw [hex fs n hs]
    exact ⟨by simp, rfl, fun _ => rfl⟩
  | none =>
    have hne : ¬ pathExists fs (currentPath.join fileName) = true := by
      rw [(pathExists_false_iff _ _).mpr hs]; decide
    have h1 : createFile fs os currentPath fileName =
        match ofstream_open fs os (currentPath.join fileName) with
        | some fs' => (fs', Message.created)
        | none => (fs, Message.couldNotCreate) := by
      unfold createFile
      dsimp only
      rw [if_neg hne]
    cases ho : ofstream_open fs os (currentPath.join fileName) with
    | some fs' =>
      rw [ho] at h1
      obtain ⟨n, hn⟩ := ofstream_open_exists fs fs' os _ hs ho
      rw [h1]
      dsimp only
      rw [hex fs' n hn]
      exact ⟨by simp, rfl, fun _ => rfl⟩
    | none =>
      rw [ho] at h1
      rw [h1]
      dsimp only
      rw [h1]
      exact ⟨by simp, rfl, fun h => by simp at h⟩

/-- Witness of C9 (as amended): `a.txt` exists in `/home`, and `createFile`
leaves it; the second call on the dangling link reports that the file exists. -/
theorem createFile_existing_witness :
    createFile homeFs plainOs homeDir (rel "a.txt") = (homeFs, Message.alreadyExists) ∧
    createFile (createFile homeFs linkOs homeDir (rel "link")).1 linkOs homeDir (rel "link") =
      ((createFile homeFs linkOs homeDir (rel "link")).1, Message.alreadyExists) :=
  ⟨(createFile_existing homeFs plainOs homeDir (rel "a.txt")).1
      ⟨FileType.regular, 0o600, [104, 105]⟩ (by decide),
   (createFile_existing homeFs linkOs homeDir (rel "link")).2.2.2 (by decide)⟩

/-! ### `deleteFile` -/

/-- C10, as stated, fails: `a.txt` exists, is not a directory and the answer is
`y`, but the operating system refuses to remove it: `fs::remove` throws, the
error is printed and the file stays.  The dangling link `/home/link`, an
entry of the directory, is reported as missing. -/
theorem deleteFile_refused_keeps_file :
    pathExists homeFs (homeDir.join (rel "a.txt")) = true ∧
    is_directory homeFs (homeDir.join (rel "a.txt")) = false ∧
    deleteFile homeFs guardedOs homeDir (rel "a.txt") 'y' = (homeFs, Message.filesystemError) ∧
    linkOs.danglingLink (homeDir.join (rel "link")) = some ⟨true, ["home", "target"]⟩ ∧
    deleteFile homeFs linkOs homeDir (rel "link") 'y' = (homeFs, Message.fileMissing) := by
  decide

/-- C10 (as amended): `deleteFile` removes the target exactly when
`fs::exists` holds for it, it is not a directory, the answer is `y` or `Y` and
the operating system does not refuse the removal; then the target is gone and
every path that is not another name of it is as before; a directory is
refused, a refused removal is reported as an error, and whenever nothing is
removed the file system is returned as it was. -/
theorem deleteFile_removes_iff (fs : FileSystem) (os : Os) (currentPath fileName : Path)
    (confirm : Char) :
    ((deleteFile fs os currentPath fileName confirm).2 = Message.deleted ↔
      (pathExists fs (currentPath.join fileName) = true ∧
        is_directory fs (currentPath.join fileName) = false ∧
        (confirm = 'y' ∨ confirm = 'Y') ∧
        os.deniesUnlink (currentPath.join fileName) = false)) ∧
    ((deleteFile fs os currentPath fileName confirm).2 = Message.deleted →
      status (deleteFile fs os currentPath fileName confirm).1 (currentPath.join fileName) =
        none ∧
      ∀ q : Path, q ≠ currentPath.join fileName →
        os.sameFile q (currentPath.join fileName) = false →
        status (deleteFile fs os currentPath fileName confirm).1 q = status fs q) ∧
    (is_directory fs (currentPath.join fileName) = true →
      deleteFile fs os currentPath fileName confirm = (fs, Message.isDirectory)) ∧
    (pathExists fs (currentPath.join fileName) = true →
      is_directory fs (currentPath.join fileName) = false →
      (confirm = 'y' ∨ confirm = 'Y') →
      os.deniesUnlink (currentPath.join fileName) = true →
      deleteFile fs os currentPath fileName confirm = (fs, Message.filesystemError)) ∧
    ((deleteFile fs os currentPath fileName confirm).2 ≠ Message.deleted →
      (deleteFile fs os currentPath fileName confirm).1 = fs) := by
  cases hs : status fs (currentPath.join fileName) with
  | none =>
    have he : pathExists fs (currentPath.join fileName) = false := (pathExists_false_iff _ _).mpr hs
    have hd : is_directory fs (currentPath.join fileName) = false := by
      unfold is_directory; rw [hs]
    have hr : deleteFile fs os currentPath fileName confirm = (fs, Message.fileMissing) := by
      unfold deleteFile; dsimp only; rw [if_pos he]
    rw [hr, he, hd]
    simp
  | some n =>
    have he : pathExists fs (currentPath.join fileName) = true := (pathExists_iff _ _).mpr ⟨n, hs⟩
    have he' : ¬ pathExists fs (currentPath.join fileName) = false := by rw [he]; decide
    by_cases hd : is_directory fs (currentPath.join fileName) = true
    · have hr : deleteFile fs os currentPath fileName confirm = (fs, Message.isDirectory) := by
        unfold deleteFile; dsimp only; rw [if_neg he', if_pos hd]
      rw [hr, he, hd]
      simp
    · have hd' : is_directory fs (currentPath.join fileName) = false := by
        cases h : is_directory fs (currentPath.join fileName) with
        | false => rfl
        | true => exact absurd h hd
      have hnt : ¬ n.type = FileType.directory := by
        intro ht
        apply hd
        unfold is_directory
        rw [hs]
        simp [ht]
      by_cases hc : confirm = 'y' ∨ confirm = 'Y'
      · cases hu : os.deniesUnlink (currentPath.join fileName) with
        | true =>
          have hrm : remove fs os (currentPath.join fileName) = none := by
            unfold remove
            rw [hs]
            dsimp only
            rw [if_pos hu]
          have hr : deleteFile fs os currentPath fileName confirm =
              (fs, Message.filesystemError) := by
            unfold deleteFile; dsimp only; rw [if_neg he', if_neg hd, if_pos hc, hrm]
          rw [hr, he, hd']
          simp
        | false =>
          have hrm : remove fs os (currentPath.join fileName) =
              some (erase fs (currentPath.join fileName)) := by
            unfold remove
            rw [hs]
            dsimp only
            rw [if_neg (by rw [hu]; decide), if_neg (fun h => hnt h.1)]
          have hr : deleteFile fs os currentPath fileName confirm =
              (erase fs (currentPath.join fileName), Message.deleted) := by
            unfold deleteFile; dsimp only; rw [if_neg he', if_neg hd, if_pos hc, hrm]
          rw [hr, he, hd']
          refine ⟨by simp [hc], ?_, by simp, by simp, by simp⟩
          intro _
          refine ⟨by rw [status_erase, if_pos rfl], fun q hq _ => by rw [status_erase, if_neg hq]⟩
      · have hr : deleteFile fs os currentPath fileName confirm = (fs, Message.cancelled) := by
          unfold deleteFile; dsimp only; rw [if_neg he', if_neg hd, if_neg hc]
        rw [hr, he, hd']
        simp [hc]

/-- Witness of C10 (as amended): with the answer `y` and nothing refused the
file `a.txt` of `/home` is removed and `b.txt` stays; with the removal refused
the error is reported. -/
theorem deleteFile_removes_iff_witness :
    status (deleteFile homeFs plainOs homeDir (rel "a.txt") 'y').1 (homeDir.join (rel "a.txt")) =
      none ∧
    status (deleteFile homeFs plainOs homeDir (rel "a.txt") 'y').1 (homeDir.join (rel "b.txt")) =
      status homeFs (homeDir.join (rel "b.txt")) ∧
    deleteFile homeFs guardedOs homeDir (rel "a.txt") 'y' = (homeFs, Message.filesystemError) :=
  ⟨((deleteFile_removes_iff homeFs plainOs homeDir (rel "a.txt") 'y').2.1 (by decide)).1,
   ((deleteFile_removes_iff homeFs plainOs homeDir (rel "a.txt") 'y').2.1 (by decide)).2
     (homeDir.join (rel "b.txt")) (by decide) (by decide),
   (deleteFile_removes_iff homeFs guardedOs homeDir (rel "a.txt") 'y').2.2.2.1
     (by decide) (by decide) (Or.inl rfl) (by decide)⟩

/-! ### `changePermissions` -/

theorem land_two_pow_ne_zero (p k : Nat) : p &&& 2 ^ k ≠ 0 ↔ p.testBit k = true := by
  rw [Nat.and_two_pow]
  cases p.testBit k <;> simp

/-- The character `getPermissionString` prints for bit `k` of `p`. -/
theorem permission_append (s : String) (p k : Nat) (c : Char) :
    s ++ (if p &&& 2 ^ k ≠ 0 then String.mk [c] else "-") =
      String.mk (s.data ++ [if p.testBit k = true then c else '-']) := by
  by_cases h : p.testBit k = true
  · rw [if_pos ((land_two_pow_ne_zero p k).mpr h), if_pos h]
    rfl
  · rw [if_neg (fun hc => h ((land_two_pow_ne_zero p k).mp hc)), if_neg h]
    rfl

theorem getPermissionString_chars (p : Nat) :
    getPermissionString p = String.mk
      [if p.testBit 8 = true then 'r' else '-', if p.testBit 7 = true then 'w' else '-',
       if p.testBit 6 = true then 'x' else '-', if p.testBit 5 = true then 'r' else '-',
       if p.testBit 4 = true then 'w' else '-', if p.testBit 3 = true then 'x' else '-',
       if p.testBit 2 = true then 'r' else '-', if p.testBit 1 = true then 'w' else '-',
       if p.testBit 0 = true then 'x' else '-'] := by
  have e : getPermissionString p =
      "" ++ (if p &&& 2 ^ 8 ≠ 0 then String.mk ['r'] else "-")
        ++ (if p &&& 2 ^ 7 ≠ 0 then String.mk ['w'] else "-")
        ++ (if p &&& 2 ^ 6 ≠ 0 then String.mk ['x'] else "-")
        ++ (if p &&& 2 ^ 5 ≠ 0 then String.mk ['r'] else "-")
        ++ (if p &&& 2 ^ 4 ≠ 0 then String.mk ['w'] else "-")
        ++ (if p &&& 2 ^ 3 ≠ 0 then String.mk ['x'] else "-")
        ++ (if p &&& 2 ^ 2 ≠ 0 then String.mk ['r'] else "-")
        ++ (if p &&& 2 ^ 1 ≠ 0 then String.mk ['w'] else "-")
        ++ (if p &&& 2 ^ 0 ≠ 0 then String.mk ['x'] else "-") := rfl
  rw [e]
  simp only [permission_append]
  rfl

theorem permission_char_inj (a b : Bool) (c : Char) (hc : c ≠ '-')
    (h : (if a = true then c else '-') = (if b = true then c else '-')) : a = b := by
  cases a <;> cases b <;> simp at h ⊢
  · exact hc h.symm
  · exact hc h

theorem testBit_eq_of_getPermissionString_eq (p q : Nat)
    (h : getPermissionString p = getPermissionString q) (k : Nat) (hk : k < 9) :
    p.testBit k = q.testBit k := by
  rw [getPermissionString_chars, getPermissionString_chars] at h
  have hl : (String.mk _).data = (String.mk _).data := congrArg String.data h
  dsimp only at hl
  simp only [List.cons.injEq, and_true] at hl
  obtain ⟨h8, h7, h6, h5, h4, h3, h2, h1, h0⟩ := hl
  interval_cases k
  · exact permission_char_inj _ _ 'x' (by decide) h0
  · exact permission_char_inj _ _ 'w' (by decide) h1
  · exact permission_char_inj _ _ 'r' (by decide) h2
  · exact permission_char_inj _ _ 'x' (by decide) h3
  · exact permission_char_inj _ _ 'w' (by decide) h4
  · exact permission_char_inj _ _ 'r' (by decide) h5
  · exact permission_char_inj _ _ 'x' (by decide) h6
  · exact permission_char_inj _ _ 'w' (by decide) h7
  · exact permission_char_inj _ _ 'r' (by decide) h8

/-- C13: for every permission value `p` the string has nine characters, the
one at position `i` being the `i`-th letter of `rwxrwxrwx` when bit `8 - i` of
`p` is set and `-` otherwise; the string is that of the low nine bits of `p`,
so the set-uid, set-gid and sticky bits do not change it, and two masks in
`0..0777` with the same string are equal. -/
theorem getPermissionString_bits (p : Nat) :
    (getPermissionString p).length = 9 ∧
    (∀ i : Nat, i < 9 →
      (getPermissionString p).toList.get? i =
        some (if p.testBit (8 - i) = true then "rwxrwxrwx".toList.getD i '-' else '-')) ∧
    getPermissionString p = getPermissionString (p % 0o1000) ∧
    getPermissionString (p % 0o1000 + 0o4000) = getPermissionString p ∧
    getPermissionString (p % 0o1000 + 0o2000) = getPermissionString p ∧
    getPermissionString (p % 0o1000 + 0o1000) = getPermissionString p ∧
    (∀ q : Nat, p ≤ 0o777 → q ≤ 0o777 → getPermissionString p = getPermissionString q → p = q) := by
  have hmod : ∀ x y : Nat, x % 2 ^ 9 = y % 2 ^ 9 → getPermissionString x = getPermissionString y := by
    intro x y hxy
    have hb : ∀ k : Nat, k < 9 → x.testBit k = y.testBit k := by
      intro k hk
      have h1 := Nat.testBit_mod_two_pow x 9 k
      have h2 := Nat.testBit_mod_two_pow y 9 k
      rw [hxy] at h1
      rw [h1] at h2
      simpa [hk] using h2
    rw [getPermissionString_chars, getPermissionString_chars]
    rw [hb 8 (by omega), hb 7 (by omega), hb 6 (by omega), hb 5 (by omega), hb 4 (by omega),
      hb 3 (by omega), hb 2 (by omega), hb 1 (by omega), hb 0 (by omega)]
  have e9 : (2 : Nat) ^ 9 = 0o1000 := by decide
  refine ⟨?_, ?_, ?_, ?_, ?_, ?_, ?_⟩
  · rw [getPermissionString_chars]; rfl
  · intro i hi
    rw [getPermissionString_chars]
    interval_cases i <;> rfl
  · apply hmod; rw [e9]; exact (Nat.mod_mod _ _).symm
  · apply hmod; rw [e9]; omega
  · apply hmod; rw [e9]; omega
  · apply hmod; rw [e9]; omega
  · intro q hp hq h
    have e : (0o777 : Nat) = 511 := by decide
    apply Nat.eq_of_testBit_eq
    intro k
    by_cases hk : k < 9
    · exact testBit_eq_of_getPermissionString_eq p q h k hk
    · have hpow : 2 ^ 9 ≤ 2 ^ k := Nat.pow_le_pow_right (by decide) (by omega)
      rw [Nat.testBit_lt_two_pow (x := p) (i := k) (by omega),
        Nat.testBit_lt_two_pow (x := q) (i := k) (by omega)]

/-- Witness of C13: the mode `0100644` of a regular file and the mask `0644`
have the same string, and the mask is recovered from it. -/
theorem getPermissionString_bits_witness :
    (0o644 : Nat) ≤ 0o777 ∧ 0o100644 % 0o1000 ≤ 0o777 ∧
    getPermissionString 0o644 = getPermissionString (0o100644 % 0o1000) ∧
    0o644 = 0o100644 % 0o1000 :=
  ⟨by decide, by decide, by decide,
   (getPermissionString_bits 0o644).2.2.2.2.2.2 (0o100644 % 0o1000) (by decide) (by decide)
     (by decide)⟩

/-! ### `changeDirectory` -/

/-- C11: for an input other than `~` and `..` the target is the input itself
if it is absolute and the current directory followed by the components of the
input if it is relative; if the target exists and is a directory, the current
directory becomes what `fs::canonical` returns for the target; if the target
does not exist or is not a directory, the error line is printed and the
current directory stays as it was, as it does when `fs::canonical` throws. -/
theorem changeDirectory_moves (fs : FileSystem) (canonical : Path → Option Path)
    (home : String) (currentPath : Path) (newPath : String)
    (htilde : newPath ≠ "~") (hdots : newPath ≠ "..") :
    (changeTarget currentPath newPath =
      if (Path.ofString newPath).isAbsolute then Path.ofString newPath
      else ⟨currentPath.isAbsolute, currentPath.parts ++ (Path.ofString newPath).parts⟩) ∧
    (pathExists fs (changeTarget currentPath newPath) = true →
      is_directory fs (changeTarget currentPath newPath) = true →
      ∀ resolved : Path, canonical (changeTarget currentPath newPath) = some resolved →
        changeDirectory fs canonical home currentPath newPath =
          (resolved, ChangeOutput.currentDirectory resolved)) ∧
    (pathExists fs (changeTarget currentPath newPath) = false ∨
        is_directory fs (changeTarget currentPath newPath) = false →
      changeDirectory fs canonical home currentPath newPath =
        (currentPath, ChangeOutput.doesNotExist currentPath)) ∧
    (pathExists fs (changeTarget currentPath newPath) = true →
      is_directory fs (changeTarget currentPath newPath) = true →
      canonical (changeTarget currentPath newPath) = none →
      changeDirectory fs canonical home currentPath newPath =
        (currentPath, ChangeOutput.filesystemError)) := by
  refine ⟨?_, ?_, ?_, ?_⟩
  · unfold changeTarget Path.join
    dsimp only
    cases h : (Path.ofString newPath).isAbsolute <;> simp
  · intro he hd resolved hc
    unfold changeDirectory
    rw [if_neg htilde, if_neg hdots]
    dsimp only
    rw [he, hd, hc]
    rfl
  · intro h
    unfold changeDirectory
    rw [if_neg htilde, if_neg hdots]
    dsimp only
    rcases h with h | h <;> rw [h] <;> simp
  · intro he hd hc
    unfold changeDirectory
    rw [if_neg htilde, if_neg hdots]
    dsimp only
    rw [he, hd, hc]
    rfl

/-- Witness of C11: from `/home` the input `docs` leads to `/home/docs`, and
the input `a.txt`, a regular file, leaves the current directory. -/
theorem changeDirectory_moves_witness :
    changeDirectory homeFs (fun p => some p) "/root" homeDir "docs" =
      (⟨true, ["home", "docs"]⟩, ChangeOutput.currentDirectory ⟨true, ["home", "docs"]⟩) ∧
    changeDirectory homeFs (fun p => some p) "/root" homeDir "a.txt" =
      (homeDir, ChangeOutput.doesNotExist homeDir) :=
  ⟨(changeDirectory_moves homeFs (fun p => some p) "/root" homeDir "docs"
      (by decide) (by decide)).2.1 (by decide) (by decide) ⟨true, ["home", "docs"]⟩ (by decide),
   (changeDirectory_moves homeFs (fun p => some p) "/root" homeDir "a.txt"
      (by decide) (by decide)).2.2.1 (Or.inr (by decide))⟩

/-! ### The walk of `searchFiles` and a directory that cannot be opened -/

theorem searchLoop_append (searchTerm : String) (es : List DirEntry) (tail : List WalkStep)
    (st : SearchState) :
    searchLoop searchTerm (es.map WalkStep.entry ++ tail) st =
      searchLoop searchTerm tail (searchLoop searchTerm (es.map WalkStep.entry) st).1 := by
  induction es generalizing st with
  | nil => rfl
  | cons e es ih =>
    simp only [List.map_cons, List.cons_append, searchLoop]
    exact ih _

theorem entriesBeforeError_append (es : List DirEntry) (tail : List WalkStep) :
    entriesBeforeError (es.map WalkStep.entry ++ WalkStep.error :: tail) = es := by
  induction es with
  | nil => rfl
  | cons e es ih =>
    rw [List.map_cons, List.cons_append, entriesBeforeError, ih]

/-- The search over a walk that throws after the entries `es`: the matches
among `es` are printed, then the error. -/
theorem searchFiles_of_error (searchTerm : String) (es : List DirEntry) (tail : List WalkStep) :
    searchFiles searchTerm (es.map WalkStep.entry ++ WalkStep.error :: tail) =
      ((es.filter (fun e => decide (searchTerm.toList <:+: e.name.toList))).map searchLine,
        SearchSummary.errorDuringSearch) := by
  have h := searchLoop_append searchTerm es (WalkStep.error :: tail) ⟨[], 0⟩
  obtain ⟨_, h2, _⟩ := searchLoop_entries searchTerm es ⟨[], 0⟩
  unfold searchFiles
  dsimp only
  rw [h]
  simp only [searchLoop]
  rw [if_pos trivial, h2]
  rfl

/-- The steps of the iterator over a forest: all its entries when every
directory can be opened; otherwise some first entries of the skipping walk,
then the exception. -/
theorem walkThen_shape (f : Forest) :
    (f.hasUnreadable = false →
      ∀ next : List WalkStep, walkThen f next = f.skippingEntries.map WalkStep.entry ++ next) ∧
    (f.hasUnreadable = true →
      ∃ es : List DirEntry, es <+: f.skippingEntries ∧
        ∀ next : List WalkStep, ∃ tail : List WalkStep,
          walkThen f next = es.map WalkStep.entry ++ WalkStep.error :: tail) := by
  induction f with
  | nil =>
    refine ⟨fun _ next => rfl, fun h => ?_⟩
    simp [Forest.hasUnreadable] at h
  | file e rest ih =>
    refine ⟨fun h next => ?_, fun h => ?_⟩
    · simp only [walkThen, Forest.skippingEntries, List.map_cons, List.cons_append]
      rw [ih.1 h next]
    · obtain ⟨es, hp, hw⟩ := ih.2 h
      refine ⟨e :: es, ?_, fun next => ?_⟩
      · simp only [Forest.skippingEntries]
        exact List.cons_prefix_cons.mpr ⟨rfl, hp⟩
      · obtain ⟨tail, ht⟩ := hw next
        exact ⟨tail, by simp only [walkThen, ht, List.map_cons, List.cons_append]⟩
  | dir e readable children rest ihc ihr =>
    cases readable with
    | false =>
      refine ⟨fun h => ?_, fun _ => ⟨[e], ?_, fun next => ⟨[], rfl⟩⟩⟩
      · simp [Forest.hasUnreadable] at h
      · simp only [Forest.skippingEntries]
        exact List.cons_prefix_cons.mpr ⟨rfl, List.nil_prefix⟩
    | true =>
      cases hc : children.hasUnreadable with
      | true =>
        refine ⟨fun h => ?_, fun _ => ?_⟩
        · simp [Forest.hasUnreadable, hc] at h
        · obtain ⟨es, hp, hw⟩ := ihc.2 hc
          refine ⟨e :: es, ?_, fun next => ?_⟩
          · simp only [Forest.skippingEntries, if_true]
            exact List.cons_prefix_cons.mpr ⟨rfl, hp.trans (List.prefix_append _ _)⟩
          · obtain ⟨tail, ht⟩ := hw (walkThen rest next)
            exact ⟨tail, by simp only [walkThen, if_true, ht, List.map_cons, List.cons_append]⟩
      | false =>
        have hcw := ihc.1 hc
        cases hr : rest.hasUnreadable with
        | true =>
          refine ⟨fun h => ?_, fun _ => ?_⟩
          · simp [Forest.hasUnreadable, hr] at h
          · obtain ⟨es, hp, hw⟩ := ihr.2 hr
            refine ⟨e :: (children.skippingEntries ++ es), ?_, fun next => ?_⟩
            · simp only [Forest.skippingEntries, if_true]
              exact List.cons_prefix_cons.mpr ⟨rfl, (List.prefix_append_right_inj _).mpr hp⟩
            · obtain ⟨tail, ht⟩ := hw next
              refine ⟨tail, ?_⟩
              simp only [walkThen, if_true, hcw, ht, List.map_cons, List.cons_append,
                List.map_append, List.append_assoc]
        | false =>
          refine ⟨fun _ next => ?_, fun h => ?_⟩
          · simp only [walkThen, if_true, hcw, ihr.1 hr, Forest.skippingEntries, List.map_cons,
              List.cons_append, List.map_append, List.append_assoc]
          · simp [Forest.hasUnreadable, hc, hr] at h

/-- C12, as stated, fails: `locked` cannot be opened, the iterator throws when
it is incremented past it, and `searchFiles` ends with the error message
without a line for `report.txt`, the sibling that a walk skipping `locked`
would visit next and report. -/
theorem searchFiles_aborts_at_locked_directory :
    lockedTree.hasUnreadable = true ∧
    walk lockedTree =
      [WalkStep.entry ⟨⟨true, ["home", "locked"]⟩, FileType.directory, 4096, 0o000⟩,
       WalkStep.error] ∧
    searchFiles "report" (walk lockedTree) = ([], SearchSummary.errorDuringSearch) ∧
    (lockedTree.skippingEntries.filter
      (fun e => decide ("report".toList <:+: e.name.toList))).map searchLine =
      [("[FILE]", ⟨true, ["home", "report.txt"]⟩)] := by
  decide

/-- C12 (as amended): when the walk comes to a directory that cannot be
opened, `searchFiles` prints the matches among the entries visited up to that
directory, which are some first entries of the walk in their order, then the
error message, and nothing else: no count and no line for an entry behind the
failing directory; for a failing directory at the top of the tree only the
directory itself can be reported.  When every directory can be opened all
entries are searched. -/
theorem searchFiles_stops_at_error (searchTerm : String) (f : Forest) :
    (f.hasUnreadable = true →
      ∃ visited : List DirEntry, visited <+: f.skippingEntries ∧
        entriesBeforeError (walk f) = visited ∧
        searchFiles searchTerm (walk f) =
          ((visited.filter (fun e => decide (searchTerm.toList <:+: e.name.toList))).map
            searchLine, SearchSummary.errorDuringSearch)) ∧
    (f.hasUnreadable = false →
      searchFiles searchTerm (walk f) =
        searchFiles searchTerm (f.skippingEntries.map WalkStep.entry)) ∧
    (∀ (e : DirEntry) (children rest : Forest),
      searchFiles searchTerm (walk (Forest.dir e false children rest)) =
        (([e].filter (fun e => decide (searchTerm.toList <:+: e.name.toList))).map searchLine,
          SearchSummary.errorDuringSearch)) := by
  refine ⟨fun h => ?_, fun h => ?_, fun e children rest => ?_⟩
  · obtain ⟨es, hp, hw⟩ := (walkThen_shape f).2 h
    obtain ⟨tail, ht⟩ := hw []
    refine ⟨es, hp, ?_, ?_⟩
    · unfold walk
      rw [ht, entriesBeforeError_append]
    · unfold walk
      rw [ht, searchFiles_of_error]
  · unfold walk
    rw [(walkThen_shape f).1 h [], List.append_nil]
  · exact searchFiles_of_error searchTerm [e] []

/-- Witness of C12 (as amended): in `lockedTree` the walk stops at `locked`,
and a search for `locked` reports that directory and then the error. -/
theorem searchFiles_stops_at_error_witness :
    ∃ visited : List DirEntry, visited <+: lockedTree.skippingEntries ∧
      entriesBeforeError (walk lockedTree) = visited ∧
      searchFiles "locked" (walk lockedTree) =
        ((visited.filter (fun e => decide ("locked".toList <:+: e.name.toList))).map searchLine,
          SearchSummary.errorDuringSearch) :=
  (searchFiles_stops_at_error "locked" lockedTree).1 (by decide)

end FileExplorer
